import Mathlib

/-!
# Verification of the PDF-to-speech converter (`src/Reader.py`)

A shallow embedding of the class `AWSPDFConverter`. Texts are `List Char`;
the file system visible to the job (the temporary directory plus the output
path) is a list of `(path, size)` pairs; the AWS Polly call and the ffmpeg
invocation are oracles supplied as parameters, so every code path of the
Python source is a total Lean function of its inputs and those oracles.
-/

namespace Reader

/-- Characters stripped by Python's `str.strip()` (the ASCII whitespace
fragment; the texts in this development contain no other whitespace). -/
def isPySpace (c : Char) : Bool :=
  c = ' ' || c = '\t' || c = '\n' || c = '\r' || c = '\x0b' || c = '\x0c'

/-- `text.replace('\n', ' ')` (line 56): a single-character replace is a
per-character map. -/
def replaceNl (l : List Char) : List Char :=
  l.map fun c => if c = '\n' then ' ' else c

/-- `text.split('. ')` (line 56): split on the two-character separator `". "`,
leftmost-first and non-overlapping, with Python semantics on the empty string
(`"".split('. ') == ['']`). -/
def splitOnDotSpace : List Char → List (List Char)
  | [] => [[]]
  | '.' :: ' ' :: rest => [] :: splitOnDotSpace rest
  | c :: rest =>
    match splitOnDotSpace rest with
    | [] => [[c]]
    | s :: ss => (c :: s) :: ss

/-- Rejoining with the separator `". "`; inverse of `splitOnDotSpace`. -/
def joinDotSpace : List (List Char) → List Char
  | [] => []
  | [s] => s
  | s :: ss => s ++ '.' :: ' ' :: joinDotSpace ss

/-- Python `str.strip()`: drop leading and trailing whitespace. -/
def strip (l : List Char) : List Char :=
  ((l.dropWhile isPySpace).reverse.dropWhile isPySpace).reverse

/-- One iteration of the sentence loop (lines 58–66). The state is the pair
`(text_chunks, current_chunk)`. If the sentence still fits it is appended to
the running chunk with `'. '` re-attached; otherwise the running chunk is
flushed (stripped) when non-empty and the sentence starts a new chunk. -/
def processSentence (maxSize : Nat) (st : List (List Char) × List Char)
    (s : List Char) : List (List Char) × List Char :=
  if st.2.length + s.length < maxSize then
    (st.1, st.2 ++ s ++ ['.', ' '])
  else
    ((if st.2 = [] then st.1 else st.1 ++ [strip st.2]), s ++ ['.', ' '])

/-- The sentences of one page (lines 53–56): the page text with newlines
replaced by spaces, split on `'. '`. -/
def pageSentences (page : List Char) : List (List Char) :=
  splitOnDotSpace (replaceNl page)

/-- The final flush (lines 69–70): the last running chunk is appended,
stripped, when non-empty. -/
def flushFinal (st : List (List Char) × List Char) : List (List Char) :=
  if st.2 = [] then st.1 else st.1 ++ [strip st.2]

/-- `extract_text_from_pdf` (lines 38–73) as a function of the per-page texts
returned by PyMuPDF: the page loop folds the sentence loop over every page
(the running chunk is carried across page boundaries), then the last chunk is
flushed when non-empty (lines 69–70). -/
def extract_text_from_pdf (maxSize : Nat) (pages : List (List Char)) :
    List (List Char) :=
  flushFinal (pages.foldl
    (fun st page => (pageSentences page).foldl (processSentence maxSize) st)
    ([], []))

/-- The character budget used by the code (line 46): AWS Polly allows 3000
characters per request and the code keeps a margin. -/
def MAX_CHUNK_SIZE : Nat := 2800

/-- The chunking step applied to a single text (a one-page document). -/
def chunkText (maxSize : Nat) (text : List Char) : List (List Char) :=
  extract_text_from_pdf maxSize [text]

/-- The running chunk built from a group of sentences: each sentence gets
`'. '` re-attached (lines 61 and 66). -/
def glue : List (List Char) → List Char
  | [] => []
  | s :: ss => s ++ '.' :: ' ' :: glue ss

/-- Flattening a partition of the sentence list into groups. -/
def concatGroups : List (List (List Char)) → List (List Char)
  | [] => []
  | g :: gs => g ++ concatGroups gs

/-- The chunk a group of sentences turns into when flushed (line 65/70). -/
def chunkOf (g : List (List Char)) : List Char := strip (glue g)

/-- Invariant of the sentence loop: every flushed chunk is within the
budget, and the running chunk ends in the space of its trailing `'. '` and
is within the budget once that space is stripped. -/
def ChunkInv (m : Nat) (st : List (List Char) × List Char) : Prop :=
  (∀ c ∈ st.1, c.length ≤ m)
  ∧ (st.2 = [] ∨ ∃ l, st.2 = l ++ [' '] ∧ l.length ≤ m)

/-- The characters a chunk computed from whitespace-only input consists of. -/
def isDotOrWs (c : Char) : Bool := c = '.' || isPySpace c

/-- Invariant of the sentence loop on whitespace-only sentences: every chunk
and the running chunk contain only dots and whitespace. -/
def WsInv (st : List (List Char) × List Char) : Prop :=
  (∀ c ∈ st.1, c.all isDotOrWs = true) ∧ st.2.all isDotOrWs = true

/-- Stated from the spec's words (§4.1), for comparison with the code: the
extraction contract returns the direct per-page texts when they contain any
non-whitespace, otherwise the OCR per-page texts when those contain any
non-whitespace, otherwise an `ExtractionError`. `Reader.py` implements no
such contract: it has no OCR call and no `ExtractionError`. -/
def specTextSource (direct ocr : List (List Char)) :
    Except Unit (List (List Char)) :=
  if direct.all (fun p => p.all isPySpace) then
    (if ocr.all (fun p => p.all isPySpace) then .error () else .ok ocr)
  else .ok direct

/-! # The synthesis and assembly pipeline

`synthesize_speech`, `combine_audio_files` and `convert_pdf_to_speech`
manipulate files; their effects are embedded as explicit state passing over
the list of files the job touches, with the AWS Polly response and the
ffmpeg invocation supplied as oracle parameters. -/

/-- The paths the job touches: the per-chunk temporary files
`temp_audio_files/chunk_{i}.mp3` (line 174), the ffmpeg list file
`temp_audio_files/file_list.txt` (line 113), and the output file. -/
inductive FPath where
  | chunk (i : Nat)
  | listFile
  | output
deriving DecidableEq

/-- The files visible to the job, as `(path, size)` pairs; the operations
below keep paths unique. -/
abbrev FS := List (FPath × Nat)

/-- Create or overwrite a file of the given size. -/
def fsWrite (p : FPath) (n : Nat) (fs : FS) : FS :=
  (p, n) :: fs.filter (fun e => !decide (e.1 = p))

/-- `os.remove`. -/
def fsRemove (p : FPath) (fs : FS) : FS :=
  fs.filter (fun e => !decide (e.1 = p))

/-- `os.path.exists`. -/
def fsHas (p : FPath) (fs : FS) : Bool :=
  fs.any (fun e => decide (e.1 = p))

/-- The outcome of one `polly_client.synthesize_speech` call: the client
raises (`BotoCoreError`/`ClientError`, abstracted to a numeric cause), or
returns a response carrying an `"AudioStream"` of some size, or returns a
response with no `"AudioStream"` entry. -/
inductive PollyResponse where
  | errResp (cause : Nat)
  | okAudio (size : Nat)
  | okNoAudio
deriving DecidableEq

/-- `synthesize_speech` (lines 79–101): the audio stream is written to
`output_path` only when the response contains `"AudioStream"`
(lines 94–97); a client error propagates unchanged (lines 99–101); a
response without `"AudioStream"` returns successfully writing nothing. -/
def synthesize_speech (resp : PollyResponse) (output_path : FPath)
    (fs : FS) : Except Nat FS :=
  match resp with
  | .errResp cause => .error cause
  | .okAudio size => .ok (fsWrite output_path size fs)
  | .okNoAudio => .ok fs

/-- The cleanup loop of `combine_audio_files` (lines 141–143): remove each
input file that exists. -/
def removeAll (files : List FPath) (fs : FS) : FS :=
  files.foldl (fun fs f => if fsHas f fs then fsRemove f fs else fs) fs

/-- `combine_audio_files` (lines 103–147), with the ffmpeg invocation as the
oracle `(ffmpegExit, ffmpegWrites, ffmpegSize)`: write the list file
(lines 116–121), run ffmpeg — which creates the output file, of size
`ffmpegSize`, iff `ffmpegWrites` — raise when the exit code is non-zero
(lines 130–131), raise when no file exists at the output path
(lines 134–135; the file's size is never inspected), and only after both
checks delete the list file and every existing input file (lines 139–143).
The error value carries the file state at the raise: the `except` block
(lines 145–147) only re-raises, so no cleanup happens on failure. -/
def combine_audio_files (input_files : List FPath) (ffmpegExit : Nat)
    (ffmpegWrites : Bool) (ffmpegSize : Nat) (fs : FS) : Except FS FS :=
  let fs1 := fsWrite .listFile input_files.length fs
  let fs2 := if ffmpegWrites then fsWrite .output ffmpegSize fs1 else fs1
  if ffmpegExit ≠ 0 then .error fs2
  else if fsHas .output fs2 = false then .error fs2
  else .ok (removeAll input_files (fsRemove .listFile fs2))

/-- The error a failed conversion propagates: the synthesis loop re-raises
the client error unchanged (no chunk index is attached), and assembly
re-raises its exception. -/
inductive PipeErr where
  | synthErr (cause : Nat)
  | asmErr
deriving DecidableEq

/-- The chunk loop of `convert_pdf_to_speech` (lines 169–179): chunk `i` is
synthesized to `chunk_{i}.mp3` and that path is appended to `temp_files`
whether or not the call wrote a file; the first client error aborts the
loop. -/
def runSynthLoop (resps : List PollyResponse) (i : Nat) (fs : FS)
    (temp_files : List FPath) : Except (Nat × FS) (List FPath × FS) :=
  match resps with
  | [] => .ok (temp_files, fs)
  | r :: rs =>
    match synthesize_speech r (.chunk i) fs with
    | .error cause => .error (cause, fs)
    | .ok fs' => runSynthLoop rs (i + 1) fs' (temp_files ++ [.chunk i])

/-- `convert_pdf_to_speech` (lines 149–189), given the per-chunk Polly
outcomes and the ffmpeg oracle: the synthesis loop, then assembly on the
recorded paths; every error propagates unchanged (lines 187–189 only
re-raise). -/
def convert_pdf_to_speech (resps : List PollyResponse) (ffmpegExit : Nat)
    (ffmpegWrites : Bool) (ffmpegSize : Nat) (fs : FS) :
    Except (PipeErr × FS) FS :=
  match runSynthLoop resps 0 fs [] with
  | .error (cause, fs') => .error (.synthErr cause, fs')
  | .ok (files, fs') =>
    match combine_audio_files files ffmpegExit ffmpegWrites ffmpegSize fs' with
    | .error fs'' => .error (.asmErr, fs'')
    | .ok fs'' => .ok fs''

/-- The contents of the temporary directory: every file except the output. -/
def tempFiles (fs : FS) : FS :=
  fs.filter (fun e => !decide (e.1 = FPath.output))

/-- The error component of a conversion outcome. -/
def errPart : Except (PipeErr × FS) FS → Option PipeErr
  | .error (e, _) => some e
  | .ok _ => none

/-- The file state a conversion outcome leaves behind. -/
def stateOf : Except (PipeErr × FS) FS → FS
  | .error (_, fs) => fs
  | .ok fs => fs

/-- Whether a step failed. -/
def isFailure {α β : Type} : Except α β → Bool
  | .error _ => true
  | .ok _ => false

/-- The recorded segment paths of a finished chunk loop. -/
def loopFiles : Except (Nat × FS) (List FPath × FS) → List FPath
  | .ok (files, _) => files
  | .error _ => []

/-- The file state after the chunk loop. -/
def loopState : Except (Nat × FS) (List FPath × FS) → FS
  | .ok (_, fs) => fs
  | .error (_, fs) => fs

/-- Whether the chunk loop finished without a client error. -/
def loopOk : Except (Nat × FS) (List FPath × FS) → Bool
  | .ok _ => true
  | .error _ => false

/-- Stated from the spec's words (§4.4), for comparison with the code:
assembly must fail when the concatenation step reports a non-zero status or
when the output file cannot be verified to exist *and be non-empty*. -/
def specAssemblyRequiresFailure (ffmpegExit : Nat) (outputExists : Bool)
    (outputSize : Nat) : Bool :=
  decide (ffmpegExit ≠ 0) || !outputExists || decide (outputSize = 0)

/-! ## Lemmas about the sentence split -/

theorem splitOnDotSpace_ne_nil (l : List Char) : splitOnDotSpace l ≠ [] := by
  induction l using splitOnDotSpace.induct with
  | case1 => simp [splitOnDotSpace]
  | case2 rest ih => simp [splitOnDotSpace]
  | case3 c rest h hnil ih => exact absurd hnil ih
  | case4 c rest h s ss hcons ih =>
    rw [splitOnDotSpace]
    · rw [hcons]; simp
    · exact h

/-- Rejoining the pieces of the split with `". "` restores the input:
the split loses no characters. -/
theorem joinDotSpace_splitOnDotSpace (l : List Char) :
    joinDotSpace (splitOnDotSpace l) = l := by
  induction l using splitOnDotSpace.induct with
  | case1 => simp [splitOnDotSpace, joinDotSpace]
  | case2 rest ih =>
    rw [splitOnDotSpace]
    cases h : splitOnDotSpace rest with
    | nil => exact absurd h (splitOnDotSpace_ne_nil rest)
    | cons s ss => rw [h] at ih; simpa [joinDotSpace] using ih
  | case3 c rest h hnil ih => exact absurd hnil (splitOnDotSpace_ne_nil rest)
  | case4 c rest h s ss hcons ih =>
    rw [splitOnDotSpace]
    · rw [hcons]
      rw [hcons] at ih
      cases ss with
      | nil => simpa [joinDotSpace] using ih
      | cons t ts => simpa [joinDotSpace] using ih
    · exact h

/-- A piece containing no `'.'` is not split. -/
theorem splitOnDotSpace_no_dot (l : List Char) (hl : '.' ∉ l) :
    splitOnDotSpace l = [l] := by
  induction l with
  | nil => simp [splitOnDotSpace]
  | cons c rest ih =>
    have hc : c ≠ '.' := fun h => hl (h ▸ List.mem_cons_self c rest)
    have hrest : '.' ∉ rest := fun h => hl (List.mem_cons_of_mem c h)
    rw [splitOnDotSpace]
    · rw [ih hrest]
    · intro rest' hcdot _; exact hc hcdot

/-- Splitting a text of the form `a ++ ". " ++ b` where `a` has no dot:
the first piece is `a`. -/
theorem splitOnDotSpace_append_sep (a b : List Char) (ha : '.' ∉ a) :
    splitOnDotSpace (a ++ '.' :: ' ' :: b) = a :: splitOnDotSpace b := by
  induction a with
  | nil => rw [List.nil_append, splitOnDotSpace]
  | cons c rest ih =>
    have hc : c ≠ '.' := fun h => ha (h ▸ List.mem_cons_self c rest)
    have hrest : '.' ∉ rest := fun h => ha (List.mem_cons_of_mem c h)
    rw [List.cons_append, splitOnDotSpace]
    · rw [ih hrest]
    · intro rest' hcdot _; exact hc hcdot

/-- `replace('\n', ' ')` is the identity on newline-free text. -/
theorem replaceNl_of_no_nl (l : List Char) (h : '\n' ∉ l) : replaceNl l = l := by
  induction l with
  | nil => rfl
  | cons c rest ih =>
    have hc : c ≠ '\n' := fun hc => h (hc ▸ List.mem_cons_self c rest)
    have hrest : '\n' ∉ rest := fun hr => h (List.mem_cons_of_mem c hr)
    simp [replaceNl] at ih ⊢
    exact ⟨fun hcc => absurd hcc hc, ih hrest⟩

/-! ## Lemmas about `strip` -/

theorem dropWhile_ws_append_dot_space (l : List Char) :
    (l ++ ['.', ' ']).dropWhile isPySpace = l.dropWhile isPySpace ++ ['.', ' '] := by
  rw [List.dropWhile_append]
  by_cases h : (l.dropWhile isPySpace).isEmpty
  · simp [h, List.isEmpty_iff.mp h]; rfl
  · simp [h]

/-- Flushing a running chunk `l ++ ". "` strips to
`l` without its leading whitespace, ending in `'.'`. -/
theorem strip_append_dot_space (l : List Char) :
    strip (l ++ ['.', ' ']) = l.dropWhile isPySpace ++ ['.'] := by
  rw [strip, dropWhile_ws_append_dot_space]
  have : (l.dropWhile isPySpace ++ ['.', ' ']).reverse
      = ' ' :: '.' :: (l.dropWhile isPySpace).reverse := by simp
  rw [this, List.dropWhile_cons, List.dropWhile_cons]
  simp [isPySpace]

theorem strip_length_le (l : List Char) : (strip l).length ≤ l.length := by
  rw [strip]
  calc ((l.dropWhile isPySpace).reverse.dropWhile isPySpace).reverse.length
      = ((l.dropWhile isPySpace).reverse.dropWhile isPySpace).length := by
        rw [List.length_reverse]
    _ ≤ (l.dropWhile isPySpace).reverse.length :=
        (List.dropWhile_sublist _).length_le
    _ = (l.dropWhile isPySpace).length := by rw [List.length_reverse]
    _ ≤ l.length := (List.dropWhile_sublist _).length_le

theorem strip_append_space (l : List Char) : strip (l ++ [' ']) = strip l := by
  rw [strip, strip, List.dropWhile_append]
  cases hd : l.dropWhile isPySpace with
  | nil => simp [List.dropWhile, isPySpace]
  | cons x xs =>
    have h2 : ((x :: xs) ++ [' ']).reverse = ' ' :: (x :: xs).reverse := by simp
    simp only [List.isEmpty_cons, Bool.false_eq_true, if_false, h2,
      List.dropWhile_cons]
    simp [isPySpace]

/-- Every character of `strip l` is a character of `l`. -/
theorem mem_of_mem_strip {c : Char} {l : List Char} (h : c ∈ strip l) : c ∈ l := by
  rw [strip] at h
  rw [List.mem_reverse] at h
  have h1 := (@List.dropWhile_sublist _ ((l.dropWhile isPySpace).reverse)
    isPySpace).subset h
  rw [List.mem_reverse] at h1
  exact (@List.dropWhile_sublist _ l isPySpace).subset h1

/-! ## The sentence fold: grouping structure -/

theorem glue_append (a b : List (List Char)) :
    glue (a ++ b) = glue a ++ glue b := by
  induction a with
  | nil => rfl
  | cons s ss ih => simp [glue, ih]

theorem glue_eq_nil_iff (g : List (List Char)) : glue g = [] ↔ g = [] := by
  cases g with
  | nil => simp [glue]
  | cons s ss => simp [glue]

theorem concatGroups_append (a b : List (List (List Char))) :
    concatGroups (a ++ b) = concatGroups a ++ concatGroups b := by
  induction a with
  | nil => rfl
  | cons g gs ih => simp [concatGroups, ih]

theorem glue_eq_join (ss : List (List Char)) (h : ss ≠ []) :
    glue ss = joinDotSpace ss ++ ['.', ' '] := by
  induction ss with
  | nil => exact absurd rfl h
  | cons s ss ih =>
    cases ss with
    | nil => simp [glue, joinDotSpace]
    | cons t ts =>
      rw [glue, ih (by simp)]
      simp [joinDotSpace]

/-- The sentence loop, started on a state that is an assembled list of
sentence groups plus a glued running group, produces exactly such a state
again, and the partition extends the processed sentences in order: no
sentence is lost, reordered, or moved across a chunk boundary. -/
theorem fold_grouping (m : Nat) (ss : List (List Char)) :
    ∀ (groups : List (List (List Char))) (cur : List (List Char)),
    (∀ g ∈ groups, g ≠ []) →
    ∃ groups' cur',
      ss.foldl (processSentence m) (groups.map chunkOf, glue cur)
        = (groups'.map chunkOf, glue cur')
      ∧ concatGroups groups' ++ cur' = concatGroups groups ++ cur ++ ss
      ∧ (∀ g ∈ groups', g ≠ [])
      ∧ (cur' = [] → ss = [] ∧ cur = []) := by
  induction ss with
  | nil =>
    intro groups cur hg
    exact ⟨groups, cur, by simp, by simp, hg, fun h => ⟨rfl, h⟩⟩
  | cons s ss ih =>
    intro groups cur hg
    rw [List.foldl_cons]
    by_cases hfit : (glue cur).length + s.length < m
    · have hstep : processSentence m (groups.map chunkOf, glue cur) s
          = (groups.map chunkOf, glue (cur ++ [s])) := by
        simp [processSentence, hfit, glue_append, glue]
      rw [hstep]
      obtain ⟨groups', cur', h1, h2, h3, h4⟩ := ih groups (cur ++ [s]) hg
      refine ⟨groups', cur', h1, ?_, h3, ?_⟩
      · rw [h2]; simp
      · intro hnil
        exact absurd ((h4 hnil).2) (by simp)
    · by_cases hcur : cur = []
      · subst hcur
        have hstep : processSentence m (groups.map chunkOf, glue []) s
            = (groups.map chunkOf, glue [s]) := by
          simp [processSentence, hfit, glue]
        rw [hstep]
        obtain ⟨groups', cur', h1, h2, h3, h4⟩ := ih groups [s] hg
        refine ⟨groups', cur', h1, ?_, h3, ?_⟩
        · rw [h2]; simp
        · intro hnil
          exact absurd ((h4 hnil).2) (by simp)
      · have hglue : glue cur ≠ [] := fun h => hcur ((glue_eq_nil_iff cur).mp h)
        have hstep : processSentence m (groups.map chunkOf, glue cur) s
            = ((groups ++ [cur]).map chunkOf, glue [s]) := by
          simp [processSentence, hfit, hglue, chunkOf, glue]
        rw [hstep]
        have hwf : ∀ g ∈ groups ++ [cur], g ≠ [] := by
          intro g hmem
          rcases List.mem_append.mp hmem with h | h
          · exact hg g h
          · rw [List.mem_singleton.mp h]; exact hcur
        obtain ⟨groups', cur', h1, h2, h3, h4⟩ := ih (groups ++ [cur]) [s] hwf
        refine ⟨groups', cur', h1, ?_, h3, ?_⟩
        · rw [h2, concatGroups_append]; simp [concatGroups]
        · intro hnil
          exact absurd ((h4 hnil).2) (by simp)

/-! ## Texts that fit in one chunk -/

/-- When the glued length of all remaining sentences still fits under the
budget, the sentence loop never flushes: everything accumulates into the
running chunk. -/
theorem fold_all_fit (m : Nat) (ss : List (List Char)) :
    ∀ (chunks : List (List Char)) (cur : List Char), ss ≠ [] →
    cur.length + (joinDotSpace ss).length < m →
    ss.foldl (processSentence m) (chunks, cur) = (chunks, cur ++ glue ss) := by
  induction ss with
  | nil => intro _ _ h; exact absurd rfl h
  | cons s ss ih =>
    intro chunks cur _ hlen
    cases ss with
    | nil =>
      have hfit : cur.length + s.length < m := by
        simpa [joinDotSpace] using hlen
      simp [processSentence, hfit, glue]
    | cons t ts =>
      have hj : joinDotSpace (s :: t :: ts)
          = s ++ '.' :: ' ' :: joinDotSpace (t :: ts) := rfl
      have hlen' : cur.length + (s.length + 2
          + (joinDotSpace (t :: ts)).length) < m := by
        rw [hj] at hlen
        simp only [List.length_append, List.length_cons] at hlen ⊢
        omega
      have hfit : cur.length + s.length < m := by omega
      rw [List.foldl_cons]
      have hstep : processSentence m (chunks, cur) s
          = (chunks, cur ++ s ++ ['.', ' ']) := by
        simp [processSentence, hfit]
      rw [hstep, ih chunks (cur ++ s ++ ['.', ' ']) (by simp)
        (by simp only [List.length_append, List.length_cons, List.length_nil]
            omega)]
      simp [glue]

/-! ## The chunk-size invariant -/

theorem strip_bound {m : Nat} {cur : List Char}
    (h : ∃ l, cur = l ++ [' '] ∧ l.length ≤ m) : (strip cur).length ≤ m := by
  obtain ⟨l, rfl, hl⟩ := h
  rw [strip_append_space]
  exact le_trans (strip_length_le l) hl

theorem processSentence_inv {m : Nat} {st : List (List Char) × List Char}
    {s : List Char} (hs : s.length < m) (h : ChunkInv m st) :
    ChunkInv m (processSentence m st s) := by
  obtain ⟨hchunks, hcur⟩ := h
  rw [processSentence]
  by_cases hfit : st.2.length + s.length < m
  · simp only [hfit, if_true]
    refine ⟨hchunks, Or.inr ⟨st.2 ++ s ++ ['.'], by simp, ?_⟩⟩
    simp only [List.length_append, List.length_cons, List.length_nil]
    omega
  · simp only [hfit, if_false]
    refine ⟨?_, Or.inr ⟨s ++ ['.'], by simp, ?_⟩⟩
    · by_cases hnil : st.2 = []
      · simpa [hnil] using hchunks
      · simp only [hnil, if_false]
        intro c hc
        rcases List.mem_append.mp hc with h | h
        · exact hchunks c h
        · rw [List.mem_singleton.mp h]
          rcases hcur with h' | h'
          · exact absurd h' hnil
          · exact strip_bound h'
    · simp only [List.length_append, List.length_cons, List.length_nil]
      omega

theorem foldl_sentences_inv {m : Nat} {ss : List (List Char)}
    {st : List (List Char) × List Char}
    (hss : ∀ s ∈ ss, s.length < m) (h : ChunkInv m st) :
    ChunkInv m (ss.foldl (processSentence m) st) := by
  induction ss generalizing st with
  | nil => exact h
  | cons s ss ih =>
    rw [List.foldl_cons]
    exact ih (fun s' hs' => hss s' (List.mem_cons_of_mem s hs'))
      (processSentence_inv (hss s (List.mem_cons_self s ss)) h)

theorem foldl_pages_inv {m : Nat} {pages : List (List Char)}
    {st : List (List Char) × List Char}
    (h : ∀ p ∈ pages, ∀ s ∈ pageSentences p, s.length < m)
    (hst : ChunkInv m st) :
    ChunkInv m (pages.foldl
      (fun st page => (pageSentences page).foldl (processSentence m) st) st) := by
  induction pages generalizing st with
  | nil => exact hst
  | cons p ps ih =>
    rw [List.foldl_cons]
    exact ih (fun p' hp' => h p' (List.mem_cons_of_mem p hp'))
      (foldl_sentences_inv (h p (List.mem_cons_self p ps)) hst)

/-! ## Whitespace-only input -/

theorem all_strip {p : Char → Bool} {l : List Char} (h : l.all p = true) :
    (strip l).all p = true := by
  rw [List.all_eq_true] at h ⊢
  exact fun c hc => h c (mem_of_mem_strip hc)

theorem processSentence_ws {m : Nat} {st : List (List Char) × List Char}
    {s : List Char} (hs : s.all isPySpace = true) (h : WsInv st) :
    WsInv (processSentence m st s) := by
  obtain ⟨hchunks, hcur⟩ := h
  have hs' : s.all isDotOrWs = true := by
    rw [List.all_eq_true] at hs ⊢
    intro c hc
    simp [isDotOrWs, hs c hc]
  rw [processSentence]
  by_cases hfit : st.2.length + s.length < m
  · simp only [hfit, if_true]
    refine ⟨hchunks, ?_⟩
    simp [List.all_append, hcur, hs', isDotOrWs, isPySpace]
  · simp only [hfit, if_false]
    refine ⟨?_, by simp [List.all_append, hs', isDotOrWs, isPySpace]⟩
    by_cases hnil : st.2 = []
    · simpa [hnil] using hchunks
    · simp only [hnil, if_false]
      intro c hc
      rcases List.mem_append.mp hc with h | h
      · exact hchunks c h
      · rw [List.mem_singleton.mp h]
        exact all_strip hcur

theorem pageSentences_ws {p : List Char} (hp : p.all isPySpace = true) :
    ∀ s ∈ pageSentences p, s.all isPySpace = true := by
  have hrep : (replaceNl p).all isPySpace = true := by
    rw [List.all_eq_true] at hp ⊢
    intro c hc
    rw [replaceNl, List.mem_map] at hc
    obtain ⟨c', hc', rfl⟩ := hc
    by_cases h : c' = '\n'
    · simp [h, isPySpace]
    · rw [if_neg h]; exact hp c' hc'
  have hnodot : '.' ∉ replaceNl p := by
    intro hmem
    have := List.all_eq_true.mp hrep '.' hmem
    simp [isPySpace] at this
  intro s hs
  rw [pageSentences, splitOnDotSpace_no_dot _ hnodot] at hs
  rwa [List.mem_singleton.mp hs]

theorem foldl_sentences_ws {m : Nat} {ss : List (List Char)}
    {st : List (List Char) × List Char}
    (hss : ∀ s ∈ ss, s.all isPySpace = true) (h : WsInv st) :
    WsInv (ss.foldl (processSentence m) st) := by
  induction ss generalizing st with
  | nil => exact h
  | cons s ss ih =>
    rw [List.foldl_cons]
    exact ih (fun s' hs' => hss s' (List.mem_cons_of_mem s hs'))
      (processSentence_ws (hss s (List.mem_cons_self s ss)) h)

theorem foldl_pages_ws {m : Nat} {pages : List (List Char)}
    {st : List (List Char) × List Char}
    (h : ∀ p ∈ pages, p.all isPySpace = true) (hst : WsInv st) :
    WsInv (pages.foldl
      (fun st page => (pageSentences page).foldl (processSentence m) st) st) := by
  induction pages generalizing st with
  | nil => exact hst
  | cons p ps ih =>
    rw [List.foldl_cons]
    exact ih (fun p' hp' => h p' (List.mem_cons_of_mem p hp'))
      (foldl_sentences_ws (pageSentences_ws (h p (List.mem_cons_self p ps))) hst)

/-! ## Concrete long texts, built from `List.replicate` -/

theorem no_dot_replicate_a (n : Nat) : '.' ∉ List.replicate n 'a' :=
  fun h => absurd (List.eq_of_mem_replicate h) (by decide)

theorem no_nl_replicate_a (n : Nat) : '\n' ∉ List.replicate n 'a' :=
  fun h => absurd (List.eq_of_mem_replicate h) (by decide)

theorem dropWhile_ws_cons_of_not_ws {c : Char} (t : List Char)
    (hc : isPySpace c = false) : (c :: t).dropWhile isPySpace = c :: t := by
  rw [List.dropWhile_cons, hc]
  simp

theorem dropWhile_ws_replicate_a (n : Nat) :
    (List.replicate n 'a').dropWhile isPySpace = List.replicate n 'a' := by
  cases n with
  | zero => rfl
  | succ k =>
    rw [List.replicate_succ]
    exact dropWhile_ws_cons_of_not_ws _ (by decide)

/-! ## Claim C1 -/

/-- C1, amended: every chunk respects the budget provided every sentence of
the split is shorter than the budget; the code never splits a long sentence
at a word boundary, so the proviso is necessary. -/
theorem chunks_within_budget (m : Nat) (pages : List (List Char))
    (h : ∀ p ∈ pages, ∀ s ∈ pageSentences p, s.length < m) :
    ∀ c ∈ extract_text_from_pdf m pages, c.length ≤ m := by
  obtain ⟨h1, h2⟩ := @foldl_pages_inv m pages ([], []) h
    ⟨fun c hc => absurd hc (List.not_mem_nil c), Or.inl rfl⟩
  rw [extract_text_from_pdf, flushFinal]
  split_ifs with hnil
  · exact h1
  · intro c hc
    rcases List.mem_append.mp hc with h' | h'
    · exact h1 c h'
    · rw [List.mem_singleton.mp h']
      rcases h2 with h' | h'
      · exact absurd h' hnil
      · exact strip_bound h'

/-- C1 witness: a two-character page produces the chunk `"hi."`, within the
budget. -/
theorem chunks_within_budget_witness : (['h', 'i', '.'] : List Char).length ≤ 2800 :=
  chunks_within_budget 2800 [['h', 'i']] (by decide) ['h', 'i', '.'] (by decide)

/-- C1 counterexample: a single sentence of 2800 `'a'`s (no word boundary in
sight, but the claim promises word-boundary splitting) becomes one chunk of
2801 characters, exceeding `max_chunk_chars = 2800`. -/
theorem long_sentence_chunk_exceeds_budget :
    ¬ (∀ c ∈ chunkText 2800 (List.replicate 2800 'a'), c.length ≤ 2800) := by
  have hsent : pageSentences (List.replicate 2800 'a')
      = [List.replicate 2800 'a'] := by
    rw [pageSentences, replaceNl_of_no_nl _ (no_nl_replicate_a 2800),
      splitOnDotSpace_no_dot _ (no_dot_replicate_a 2800)]
  have hfold : processSentence 2800 ([], []) (List.replicate 2800 'a')
      = ([], List.replicate 2800 'a' ++ ['.', ' ']) := by
    rw [processSentence]
    rw [if_neg (by rw [List.length_nil, List.length_replicate]; norm_num)]
    rw [if_pos rfl]
  have hchunk : chunkText 2800 (List.replicate 2800 'a')
      = [List.replicate 2800 'a' ++ ['.']] := by
    rw [chunkText, extract_text_from_pdf, List.foldl_cons, List.foldl_nil,
      hsent, List.foldl_cons, List.foldl_nil, hfold, flushFinal]
    rw [if_neg (fun hh =>
      absurd (List.append_eq_nil.mp hh).2 (List.cons_ne_nil _ _))]
    rw [strip_append_dot_space, dropWhile_ws_replicate_a, List.nil_append]
  intro h
  have hlen := h (List.replicate 2800 'a' ++ ['.'])
    (by rw [hchunk]; exact List.mem_singleton_self _)
  rw [List.length_append, List.length_replicate] at hlen
  norm_num at hlen

/-! ## Claim C2 -/

/-- C2, amended: the chunk sequence is the image of an ordered partition of
the sentence list — no sentence is lost, reordered, or moved across a chunk
boundary — and rejoining the sentences with `". "` reconstructs the
newline-normalised text. Characters can still be lost relative to the
original text: newlines become spaces, each chunk is stripped at its ends,
and `". "` boundaries are re-attached as `". "`/`"."`. -/
theorem chunks_partition_sentences (m : Nat) (text : List Char) :
    ∃ G : List (List (List Char)),
      G ≠ []
      ∧ (∀ g ∈ G, g ≠ [])
      ∧ concatGroups G = pageSentences text
      ∧ chunkText m text = G.map chunkOf
      ∧ joinDotSpace (pageSentences text) = replaceNl text := by
  obtain ⟨groups', cur', h1, h2, h3, h4⟩ :=
    fold_grouping m (pageSentences text) [] []
      (fun g hg => absurd hg (List.not_mem_nil g))
  have hcur' : cur' ≠ [] := by
    intro hc
    obtain ⟨hss, -⟩ := h4 hc
    exact splitOnDotSpace_ne_nil (replaceNl text)
      (by rwa [pageSentences] at hss)
  refine ⟨groups' ++ [cur'], by simp, ?_, ?_, ?_, ?_⟩
  · intro g hg
    rcases List.mem_append.mp hg with h' | h'
    · exact h3 g h'
    · rw [List.mem_singleton.mp h']; exact hcur'
  · rw [concatGroups_append]
    have : concatGroups [cur'] = cur' := by simp [concatGroups]
    rw [this]
    simpa using h2
  · rw [chunkText, extract_text_from_pdf, List.foldl_cons, List.foldl_nil]
    have hinit : (([], []) : List (List Char) × List Char)
        = (([] : List (List (List Char))).map chunkOf, glue []) := rfl
    rw [hinit, h1, flushFinal]
    have hglue : glue cur' ≠ [] := fun hh => hcur' ((glue_eq_nil_iff _).mp hh)
    rw [if_neg hglue]
    simp [chunkOf]
  · rw [pageSentences]
    exact joinDotSpace_splitOnDotSpace _

/-- C2 counterexample: the text `"a\nb"` produces the single chunk
`"a b."`; the newline of the original text occurs in no chunk, so
concatenating the chunks cannot reconstruct the original text. -/
theorem newline_lost_counterexample :
    chunkText 2800 ['a', '\n', 'b'] = [['a', ' ', 'b', '.']]
    ∧ '\n' ∈ ['a', '\n', 'b']
    ∧ '\n' ∉ ['a', ' ', 'b', '.'] := by decide

/-! ## Claim C5 -/

/-- C5, amended: any text shorter than the budget yields exactly one chunk,
namely the newline-normalised text stripped of leading whitespace with `'.'`
appended — not the text itself, and for the empty text the chunk `"."`
rather than an empty sequence. -/
theorem short_text_single_chunk (m : Nat) (text : List Char)
    (h : text.length < m) :
    chunkText m text = [(replaceNl text).dropWhile isPySpace ++ ['.']] := by
  have hne : pageSentences text ≠ [] := splitOnDotSpace_ne_nil _
  have hlen : (joinDotSpace (pageSentences text)).length = text.length := by
    rw [pageSentences, joinDotSpace_splitOnDotSpace, replaceNl, List.length_map]
  rw [chunkText, extract_text_from_pdf, List.foldl_cons, List.foldl_nil,
    fold_all_fit m (pageSentences text) [] [] hne
      (by rw [hlen, List.length_nil]; omega),
    flushFinal]
  have hglue : glue (pageSentences text) ≠ [] :=
    fun hh => hne ((glue_eq_nil_iff _).mp hh)
  rw [List.nil_append, if_neg hglue, glue_eq_join _ hne, pageSentences,
    joinDotSpace_splitOnDotSpace, strip_append_dot_space]
  simp

/-- C5 witness: `"ab"` yields the single chunk `"ab."`. -/
theorem short_text_single_chunk_witness :
    chunkText 2800 ['a', 'b']
      = [(replaceNl ['a', 'b']).dropWhile isPySpace ++ ['.']] :=
  short_text_single_chunk 2800 ['a', 'b'] (by decide)

/-- C5 counterexample: the empty text yields the chunk `"."`, not an empty
sequence, and `"ab"` (length ≤ 2800) yields `"ab."`, not `"ab"`. -/
theorem empty_text_chunk_counterexample :
    chunkText 2800 [] = [['.']]
    ∧ chunkText 2800 ['a', 'b'] = [['a', 'b', '.']]
    ∧ ([['.']] : List (List Char)) ≠ []
    ∧ ([['a', 'b', '.']] : List (List Char)) ≠ [['a', 'b']] := by decide

/-! ## Claim C9 -/

/-- C9: chunking is deterministic — it is a pure function of the page texts
and the budget alone (the embedding takes no clock, randomness, or other
environment), so two runs on equal inputs produce equal chunk sequences. -/
theorem chunking_deterministic (m : Nat) (pages₁ pages₂ : List (List Char))
    (h : pages₁ = pages₂) :
    extract_text_from_pdf m pages₁ = extract_text_from_pdf m pages₂ := by
  rw [h]

/-- C9 witness: two runs on the page `"hi"`. -/
theorem chunking_deterministic_witness :
    extract_text_from_pdf 2800 [['h', 'i']]
      = extract_text_from_pdf 2800 [['h', 'i']] :=
  chunking_deterministic 2800 [['h', 'i']] [['h', 'i']] rfl

/-! ## Claim C3 -/

/-- C3 counterexample: for a one-page document whose direct extraction is
empty, the spec demands the OCR text (here `"x"`), or an `ExtractionError`
when OCR also finds nothing; the code instead returns the chunk `"."`
computed from the direct text alone — it never consults OCR and cannot
fail. -/
theorem no_ocr_fallback_counterexample :
    specTextSource [[]] [['x']] = .ok [['x']]
    ∧ specTextSource [[]] [[]] = .error ()
    ∧ extract_text_from_pdf 2800 [[]] = [['.']] :=
  ⟨rfl, rfl, by decide⟩

/-- C3, amended: on whitespace-only pages `extract_text_from_pdf` does not
fall back to OCR and raises nothing; it returns chunks consisting entirely
of dots and whitespace, manufactured by the sentence loop. -/
theorem whitespace_input_dot_chunks (m : Nat) (pages : List (List Char))
    (h : ∀ p ∈ pages, p.all isPySpace = true) :
    ∀ c ∈ extract_text_from_pdf m pages, c.all isDotOrWs = true := by
  obtain ⟨h1, h2⟩ := @foldl_pages_ws m pages ([], []) h
    ⟨fun c hc => absurd hc (List.not_mem_nil c), rfl⟩
  rw [extract_text_from_pdf, flushFinal]
  split_ifs with hnil
  · exact h1
  · intro c hc
    rcases List.mem_append.mp hc with h' | h'
    · exact h1 c h'
    · rw [List.mem_singleton.mp h']
      exact all_strip h2

/-- C3 witness: the whitespace-only page `" "` yields the chunk `"."`. -/
theorem whitespace_input_dot_chunks_witness :
    (['.'] : List Char).all isDotOrWs = true :=
  whitespace_input_dot_chunks 2800 [[' ']] (by decide) ['.'] (by decide)

/-! ## Claim C8 -/

/-- C8: three sentences of 1200 characters with budget 2800 produce exactly
two chunks, sentences 1 and 2 (rejoined by `". "`, terminated by `"."`) in
the first and sentence 3 alone (terminated by `"."`) in the second. -/
theorem three_sentences_two_chunks :
    chunkText 2800 (List.replicate 1200 'a' ++ '.' :: ' '
        :: (List.replicate 1200 'a' ++ '.' :: ' ' :: List.replicate 1200 'a'))
      = [List.replicate 1200 'a' ++ '.' :: ' '
           :: (List.replicate 1200 'a' ++ ['.']),
         List.replicate 1200 'a' ++ ['.']] := by
  have hnodot := no_dot_replicate_a 1200
  have hnl : '\n' ∉ (List.replicate 1200 'a' ++ '.' :: ' '
      :: (List.replicate 1200 'a' ++ '.' :: ' ' :: List.replicate 1200 'a')) := by
    intro hmem
    have hx := no_nl_replicate_a 1200
    simp only [List.mem_append, List.mem_cons] at hmem
    rcases hmem with h | h | h | h | h | h | h
    · exact hx h
    · exact absurd h (by decide)
    · exact absurd h (by decide)
    · exact hx h
    · exact absurd h (by decide)
    · exact absurd h (by decide)
    · exact hx h
  have hsent : pageSentences (List.replicate 1200 'a' ++ '.' :: ' '
      :: (List.replicate 1200 'a' ++ '.' :: ' ' :: List.replicate 1200 'a'))
      = [List.replicate 1200 'a', List.replicate 1200 'a',
         List.replicate 1200 'a'] := by
    rw [pageSentences, replaceNl_of_no_nl _ hnl,
      splitOnDotSpace_append_sep _ _ hnodot,
      splitOnDotSpace_append_sep _ _ hnodot,
      splitOnDotSpace_no_dot _ hnodot]
  have hlen : (List.replicate 1200 'a').length = 1200 := List.length_replicate _ _
  have h1 : processSentence 2800 ([], []) (List.replicate 1200 'a')
      = ([], List.replicate 1200 'a' ++ ['.', ' ']) := by
    rw [processSentence, if_pos (by rw [List.length_nil, hlen]; norm_num)]
    rw [List.nil_append]
  have h2 : processSentence 2800 ([], List.replicate 1200 'a' ++ ['.', ' '])
        (List.replicate 1200 'a')
      = ([], (List.replicate 1200 'a' ++ ['.', ' '])
          ++ (List.replicate 1200 'a' ++ ['.', ' '])) := by
    rw [processSentence, if_pos (by
      simp only [List.length_append, List.length_cons, List.length_nil, hlen]
      norm_num)]
    rw [List.append_assoc]
  have h3 : processSentence 2800
        ([], (List.replicate 1200 'a' ++ ['.', ' '])
          ++ (List.replicate 1200 'a' ++ ['.', ' '])) (List.replicate 1200 'a')
      = ([strip ((List.replicate 1200 'a' ++ ['.', ' '])
            ++ (List.replicate 1200 'a' ++ ['.', ' ']))],
         List.replicate 1200 'a' ++ ['.', ' ']) := by
    rw [processSentence, if_neg (by
      simp only [List.length_append, List.length_cons, List.length_nil, hlen]
      norm_num)]
    rw [if_neg (fun hh =>
      absurd (List.append_eq_nil.mp (List.append_eq_nil.mp hh).1).2
        (List.cons_ne_nil _ _))]
    rw [List.nil_append]
  have hstrip1 : strip ((List.replicate 1200 'a' ++ ['.', ' '])
        ++ (List.replicate 1200 'a' ++ ['.', ' ']))
      = List.replicate 1200 'a' ++ '.' :: ' '
          :: (List.replicate 1200 'a' ++ ['.']) := by
    have hre : (List.replicate 1200 'a' ++ ['.', ' '])
          ++ (List.replicate 1200 'a' ++ ['.', ' '])
        = (List.replicate 1200 'a' ++ '.' :: ' ' :: List.replicate 1200 'a')
            ++ ['.', ' '] := by
      rw [List.append_assoc, List.append_assoc]
      exact congrArg (List.replicate 1200 'a' ++ ·) rfl
    rw [hre, strip_append_dot_space]
    have hsucc : List.replicate 1200 'a' = 'a' :: List.replicate 1199 'a' := by
      rw [show (1200 : Nat) = 1199 + 1 from rfl, List.replicate_succ]
    have hdw : (List.replicate 1200 'a' ++ '.' :: ' '
          :: List.replicate 1200 'a').dropWhile isPySpace
        = List.replicate 1200 'a' ++ '.' :: ' ' :: List.replicate 1200 'a' := by
      conv in List.replicate 1200 'a' ++ _ => rw [hsucc, List.cons_append]
      rw [dropWhile_ws_cons_of_not_ws _ (by decide), ← List.cons_append, ← hsucc]
    rw [hdw, List.append_assoc]
    exact congrArg (List.replicate 1200 'a' ++ ·) rfl
  have hstrip2 : strip (List.replicate 1200 'a' ++ ['.', ' '])
      = List.replicate 1200 'a' ++ ['.'] := by
    rw [strip_append_dot_space, dropWhile_ws_replicate_a]
  rw [chunkText, extract_text_from_pdf, List.foldl_cons, List.foldl_nil, hsent,
    List.foldl_cons, List.foldl_cons, List.foldl_cons, List.foldl_nil,
    h1, h2, h3, flushFinal]
  rw [if_neg (fun hh =>
    absurd (List.append_eq_nil.mp hh).2 (List.cons_ne_nil _ _))]
  rw [hstrip1, hstrip2]
  rfl

/-! ## File-state lemmas -/

theorem mem_fsWrite {e : FPath × Nat} {p : FPath} {n : Nat} {fs : FS} :
    e ∈ fsWrite p n fs ↔ e = (p, n) ∨ (e ∈ fs ∧ e.1 ≠ p) := by
  simp [fsWrite, List.mem_filter]

theorem mem_fsRemove {e : FPath × Nat} {p : FPath} {fs : FS} :
    e ∈ fsRemove p fs ↔ e ∈ fs ∧ e.1 ≠ p := by
  simp [fsRemove, List.mem_filter]

theorem fsHas_fsWrite_self (p : FPath) (n : Nat) (fs : FS) :
    fsHas p (fsWrite p n fs) = true := by
  simp [fsHas, fsWrite]

theorem fsHas_fsWrite_ne {p q : FPath} (h : q ≠ p) (n : Nat) (fs : FS) :
    fsHas p (fsWrite q n fs) = fsHas p fs := by
  rw [fsHas, fsWrite, List.any_cons, List.any_filter, fsHas]
  have hq : (decide ((q, n).1 = p)) = false := by simp [h]
  rw [hq, Bool.false_or]
  congr 1
  funext e
  by_cases he : e.1 = q
  · simp [he, h]
  · simp [he]

theorem fsHas_eq_false_iff {p : FPath} {fs : FS} :
    fsHas p fs = false ↔ ∀ e ∈ fs, e.1 ≠ p := by
  rw [fsHas, List.any_eq_false]
  simp

theorem mem_removeAll {files : List FPath} :
    ∀ {fs : FS} {e : FPath × Nat},
      e ∈ removeAll files fs ↔ e ∈ fs ∧ e.1 ∉ files := by
  induction files with
  | nil => intro fs e; simp [removeAll]
  | cons f fl ih =>
    intro fs e
    have hunfold : removeAll (f :: fl) fs
        = removeAll fl (if fsHas f fs then fsRemove f fs else fs) := by
      rw [removeAll, removeAll, List.foldl_cons]
    have hstep : e ∈ (if fsHas f fs then fsRemove f fs else fs)
        ↔ e ∈ fs ∧ e.1 ≠ f := by
      split_ifs with hf
      · exact mem_fsRemove
      · have hf' : fsHas f fs = false := by
          cases hfv : fsHas f fs
          · rfl
          · exact absurd hfv hf
        constructor
        · intro he
          exact ⟨he, fsHas_eq_false_iff.mp hf' e he⟩
        · exact fun h => h.1
    rw [hunfold, ih, hstep]
    simp only [List.mem_cons]
    tauto

/-! ## The chunk loop -/

/-- When no Polly call raises, the chunk loop succeeds, records exactly the
paths `chunk_i, …, chunk_{i+n-1}` in order, and every file it leaves behind
either pre-existed or is a chunk file written by a response that carried an
`"AudioStream"`. -/
theorem runSynthLoop_ok (resps : List PollyResponse)
    (hok : ∀ r ∈ resps, ∀ c, r ≠ .errResp c) :
    ∀ (i : Nat) (fs : FS) (acc : List FPath), ∃ fs',
      runSynthLoop resps i fs acc
        = .ok (acc ++ (List.range resps.length).map (fun j => FPath.chunk (i + j)), fs')
      ∧ ∀ e ∈ fs', e ∈ fs ∨ ∃ j, j < resps.length
          ∧ resps.get? j = some (.okAudio e.2) ∧ e.1 = FPath.chunk (i + j) := by
  induction resps with
  | nil =>
    intro i fs acc
    exact ⟨fs, by simp [runSynthLoop], fun e he => Or.inl he⟩
  | cons r rs ih =>
    intro i fs acc
    have hok' : ∀ r' ∈ rs, ∀ c, r' ≠ .errResp c :=
      fun r' h c => hok r' (List.mem_cons_of_mem r h) c
    have hfiles : (acc ++ [FPath.chunk i])
          ++ (List.range rs.length).map (fun j => FPath.chunk (i + 1 + j))
        = acc ++ (List.range (r :: rs).length).map (fun j => FPath.chunk (i + j)) := by
      rw [List.length_cons, List.range_succ_eq_map, List.map_cons,
        List.map_map, List.append_assoc, List.singleton_append]
      have : ((fun j => FPath.chunk (i + j)) ∘ Nat.succ)
            = fun j => FPath.chunk (i + 1 + j) := by
        funext j
        simp [Function.comp]
        omega
      rw [this]
      simp
    cases r with
    | errResp c => exact absurd rfl (hok _ (List.mem_cons_self _ _) c)
    | okAudio size =>
      obtain ⟨fs', h1, h2⟩ := ih hok' (i + 1) (fsWrite (.chunk i) size fs)
        (acc ++ [.chunk i])
      refine ⟨fs', ?_, ?_⟩
      · exact hfiles ▸ h1
      · intro e he
        rcases h2 e he with h | ⟨j, hj, hget, hpath⟩
        · rcases mem_fsWrite.mp h with h' | ⟨h', -⟩
          · subst h'
            exact Or.inr ⟨0, by simp, rfl, by simp⟩
          · exact Or.inl h'
        · refine Or.inr ⟨j + 1, by simpa using hj, ?_, ?_⟩
          · rw [List.get?_cons_succ]; exact hget
          · rw [hpath]; congr 1; omega
    | okNoAudio =>
      obtain ⟨fs', h1, h2⟩ := ih hok' (i + 1) fs (acc ++ [.chunk i])
      refine ⟨fs', ?_, ?_⟩
      · exact hfiles ▸ h1
      · intro e he
        rcases h2 e he with h | ⟨j, hj, hget, hpath⟩
        · exact Or.inl h
        · refine Or.inr ⟨j + 1, by simpa using hj, ?_, ?_⟩
          · rw [List.get?_cons_succ]; exact hget
          · rw [hpath]; congr 1; omega

/-- When a client error occurs after an error-free prefix, the chunk loop
propagates exactly the error's cause, and every file in the state it leaves
behind either pre-existed or is some chunk file. -/
theorem runSynthLoop_err (rs₁ : List PollyResponse) (cause : Nat)
    (rs₂ : List PollyResponse)
    (hok : ∀ r ∈ rs₁, ∀ c, r ≠ .errResp c) :
    ∀ (i : Nat) (fs : FS) (acc : List FPath), ∃ fs',
      runSynthLoop (rs₁ ++ .errResp cause :: rs₂) i fs acc = .error (cause, fs')
      ∧ ∀ e ∈ fs', e ∈ fs ∨ ∃ j, e.1 = FPath.chunk j := by
  induction rs₁ with
  | nil =>
    intro i fs acc
    exact ⟨fs, rfl, fun e he => Or.inl he⟩
  | cons r rs₁ ih =>
    intro i fs acc
    have hok' : ∀ r' ∈ rs₁, ∀ c, r' ≠ .errResp c :=
      fun r' h c => hok r' (List.mem_cons_of_mem r h) c
    cases r with
    | errResp c => exact absurd rfl (hok _ (List.mem_cons_self _ _) c)
    | okAudio size =>
      obtain ⟨fs', h1, h2⟩ := ih hok' (i + 1) (fsWrite (.chunk i) size fs)
        (acc ++ [.chunk i])
      refine ⟨fs', h1, ?_⟩
      intro e he
      rcases h2 e he with h | h
      · rcases mem_fsWrite.mp h with h' | ⟨h', -⟩
        · exact Or.inr ⟨i, by rw [h']⟩
        · exact Or.inl h'
      · exact Or.inr h
    | okNoAudio =>
      obtain ⟨fs', h1, h2⟩ := ih hok' (i + 1) fs (acc ++ [.chunk i])
      exact ⟨fs', h1, h2⟩

/-! ## Claim C6 -/

/-- C6, amended: assembly fails exactly when ffmpeg reports a non-zero exit
code, or when no file exists at the output path afterwards (and none
pre-existed); the size of the output file is never inspected, so an
existing-but-empty output is accepted. -/
theorem assembly_failure_conditions (input_files : List FPath)
    (ffmpegExit : Nat) (ffmpegWrites : Bool) (ffmpegSize : Nat) (fs : FS) :
    isFailure (combine_audio_files input_files ffmpegExit ffmpegWrites
        ffmpegSize fs)
      = (decide (ffmpegExit ≠ 0)
          || (!ffmpegWrites && !fsHas FPath.output fs)) := by
  rw [combine_audio_files]
  by_cases he : ffmpegExit ≠ 0
  · simp [he, isFailure]
  · have hout : fsHas FPath.output
        (if ffmpegWrites then
          fsWrite FPath.output ffmpegSize
            (fsWrite FPath.listFile input_files.length fs)
        else fsWrite FPath.listFile input_files.length fs)
        = (ffmpegWrites || fsHas FPath.output fs) := by
      cases ffmpegWrites with
      | true => simp [fsHas_fsWrite_self]
      | false =>
        simp only [if_false, Bool.false_or]
        exact fsHas_fsWrite_ne (by simp) _ fs
    simp only [he, if_false]
    cases hw : (ffmpegWrites || fsHas FPath.output fs) with
    | true =>
      rw [hw] at hout
      simp only [hout]
      cases ffmpegWrites with
      | true => simp [he, isFailure]
      | false =>
        simp only [Bool.false_or] at hw
        simp [he, hw, isFailure]
    | false =>
      rw [hw] at hout
      simp only [hout]
      rcases Bool.or_eq_false_iff.mp hw with ⟨hw1, hw2⟩
      simp [he, hw1, hw2, isFailure]

/-- C6 counterexample: ffmpeg exits 0 and leaves an output file of size 0;
the spec requires assembly to fail (the output cannot be verified to be
non-empty), but the code verifies existence only and reports success, with
the empty file as the final output. -/
theorem empty_output_accepted_counterexample :
    specAssemblyRequiresFailure 0 true 0 = true
    ∧ combine_audio_files [] 0 true 0 [] = .ok [(FPath.output, 0)]
    ∧ isFailure (combine_audio_files [] 0 true 0 []) = false :=
  ⟨rfl, rfl, rfl⟩

/-! ## Claim C4 -/

/-- On the success path (exit code 0, output written), assembly deletes the
list file and every input file, so when everything it started with is an
input file only the output file remains. -/
theorem combine_success (files : List FPath) (size : Nat) (fs : FS)
    (hfs : ∀ e ∈ fs, e.1 ∈ files) :
    ∃ fs'', combine_audio_files files 0 true size fs = .ok fs''
      ∧ ∀ e ∈ fs'', e.1 = FPath.output := by
  refine ⟨removeAll files (fsRemove .listFile
      (fsWrite .output size (fsWrite .listFile files.length fs))), ?_, ?_⟩
  · rw [combine_audio_files]
    simp [fsHas_fsWrite_self]
  · intro e he
    obtain ⟨he1, he2⟩ := mem_removeAll.mp he
    obtain ⟨he3, he4⟩ := mem_fsRemove.mp he1
    rcases mem_fsWrite.mp he3 with h | ⟨h5, -⟩
    · rw [h]
    · rcases mem_fsWrite.mp h5 with h | ⟨h7, -⟩
      · exact absurd (congrArg Prod.fst h) he4
      · exact absurd (hfs e h7) he2

/-- C4, amended: on success (no Polly error, ffmpeg exit 0, output written)
every temporary file is deleted — starting from an empty temporary
directory, only the output file remains. On failure no cleanup is
attempted; see the counterexample. -/
theorem cleanup_on_success (resps : List PollyResponse) (ffmpegSize : Nat)
    (hok : ∀ r ∈ resps, ∀ c, r ≠ .errResp c) :
    errPart (convert_pdf_to_speech resps 0 true ffmpegSize []) = none
    ∧ tempFiles (stateOf (convert_pdf_to_speech resps 0 true ffmpegSize []))
        = [] := by
  obtain ⟨fs', hrun, hmem⟩ := runSynthLoop_ok resps hok 0 [] []
  have hfs' : ∀ e ∈ fs', e.1 ∈ ([] : List FPath)
      ++ (List.range resps.length).map (fun j => FPath.chunk (0 + j)) := by
    intro e he
    rcases hmem e he with h | ⟨j, hj, -, hpath⟩
    · exact absurd h (List.not_mem_nil e)
    · rw [List.nil_append, hpath]
      exact List.mem_map.mpr ⟨j, List.mem_range.mpr hj, rfl⟩
  obtain ⟨fs'', hcomb, hout⟩ := combine_success _ ffmpegSize fs' hfs'
  simp only [convert_pdf_to_speech, hrun, hcomb]
  refine ⟨rfl, ?_⟩
  rw [stateOf, tempFiles, List.filter_eq_nil_iff]
  intro e he
  simp [hout e he]

/-- C4 counterexample: the second chunk's synthesis fails after the first
chunk's file was written — the job propagates the error with the first
chunk's file still in the temporary directory; likewise an ffmpeg failure
leaves both the list file and the chunk file behind. No cleanup code runs
on any failure path. -/
theorem no_cleanup_on_failure_counterexample :
    convert_pdf_to_speech [.okAudio 5, .errResp 0] 0 true 1 []
      = .error (.synthErr 0, [(FPath.chunk 0, 5)])
    ∧ tempFiles [(FPath.chunk 0, 5)] = [(FPath.chunk 0, 5)]
    ∧ convert_pdf_to_speech [.okAudio 5] 1 true 1 []
      = .error (.asmErr,
          [(FPath.output, 1), (FPath.listFile, 1), (FPath.chunk 0, 5)])
    ∧ tempFiles [(FPath.output, 1), (FPath.listFile, 1), (FPath.chunk 0, 5)]
      = [(FPath.listFile, 1), (FPath.chunk 0, 5)] :=
  ⟨rfl, rfl, rfl, rfl⟩

/-- C4 witness: a job of two chunks, one of them streamless, cleans up. -/
theorem cleanup_on_success_witness :
    errPart (convert_pdf_to_speech [.okAudio 3, .okNoAudio] 0 true 9 []) = none
    ∧ tempFiles (stateOf
        (convert_pdf_to_speech [.okAudio 3, .okNoAudio] 0 true 9 [])) = [] :=
  cleanup_on_success [.okAudio 3, .okNoAudio] 9 (by simp)

/-! ## Claim C7 -/

/-- C7, amended: a single chunk's synthesis failure aborts the job before
assembly — no file is ever created at the output path — but the propagated
error is the client error's cause alone; no chunk index is attached. -/
theorem synthesis_failure_aborts (rs₁ : List PollyResponse) (cause : Nat)
    (rs₂ : List PollyResponse) (ffmpegExit : Nat) (ffmpegWrites : Bool)
    (ffmpegSize : Nat) (hok : ∀ r ∈ rs₁, ∀ c, r ≠ .errResp c) :
    errPart (convert_pdf_to_speech (rs₁ ++ .errResp cause :: rs₂)
        ffmpegExit ffmpegWrites ffmpegSize [])
      = some (.synthErr cause)
    ∧ fsHas FPath.output (stateOf
        (convert_pdf_to_speech (rs₁ ++ .errResp cause :: rs₂)
          ffmpegExit ffmpegWrites ffmpegSize [])) = false := by
  obtain ⟨fs', hrun, hmem⟩ := runSynthLoop_err rs₁ cause rs₂ hok 0 [] []
  simp only [convert_pdf_to_speech, hrun]
  refine ⟨rfl, ?_⟩
  rw [stateOf, fsHas_eq_false_iff]
  intro e he
  rcases hmem e he with h | ⟨j, hj⟩
  · exact absurd h (List.not_mem_nil e)
  · rw [hj]
    exact fun hh => FPath.noConfusion hh

/-- C7 witness: the second chunk of two fails with cause 7. -/
theorem synthesis_failure_aborts_witness :
    errPart (convert_pdf_to_speech
        ([.okAudio 3] ++ .errResp 7 :: []) 0 true 1 [])
      = some (.synthErr 7)
    ∧ fsHas FPath.output (stateOf (convert_pdf_to_speech
        ([.okAudio 3] ++ .errResp 7 :: []) 0 true 1 [])) = false :=
  synthesis_failure_aborts [.okAudio 3] 7 [] 0 true 1 (by simp)

/-- C7 counterexample: two jobs whose synthesis fails at different chunk
indices (0 of 1, and 1 of 2) with the same client cause propagate
*identical* errors — the error value cannot carry the failing chunk's
index, because the code re-raises the client error unchanged. -/
theorem error_lacks_chunk_index_counterexample :
    errPart (convert_pdf_to_speech [.errResp 7] 0 true 1 [])
      = errPart (convert_pdf_to_speech [.okAudio 3, .errResp 7] 0 true 1 [])
    ∧ errPart (convert_pdf_to_speech [.errResp 7] 0 true 1 [])
      = some (.synthErr 7) :=
  ⟨rfl, rfl⟩

/-! ## Claim C10 -/

/-- C10: when the response for some chunk `k` carries no `"AudioStream"`
(and no call raises), the loop succeeds, records every chunk path —
including `chunk_k`, which is then passed to assembly — yet no file exists
at `chunk_k`'s path: a non-error return of `synthesize_speech` does not
guarantee the file exists. -/
theorem missing_audiostream_path_recorded (rs₁ rs₂ : List PollyResponse)
    (hok : ∀ r ∈ rs₁ ++ rs₂, ∀ c, r ≠ .errResp c) :
    loopOk (runSynthLoop (rs₁ ++ .okNoAudio :: rs₂) 0 [] []) = true
    ∧ loopFiles (runSynthLoop (rs₁ ++ .okNoAudio :: rs₂) 0 [] [])
        = (List.range (rs₁ ++ .okNoAudio :: rs₂).length).map FPath.chunk
    ∧ FPath.chunk rs₁.length
        ∈ loopFiles (runSynthLoop (rs₁ ++ .okNoAudio :: rs₂) 0 [] [])
    ∧ fsHas (FPath.chunk rs₁.length)
        (loopState (runSynthLoop (rs₁ ++ .okNoAudio :: rs₂) 0 [] [])) = false := by
  have hok' : ∀ r ∈ rs₁ ++ .okNoAudio :: rs₂, ∀ c, r ≠ .errResp c := by
    intro r hr c
    rcases List.mem_append.mp hr with h | h
    · exact hok r (List.mem_append.mpr (Or.inl h)) c
    · rcases List.mem_cons.mp h with h' | h'
      · rw [h']; intro hh; exact PollyResponse.noConfusion hh
      · exact hok r (List.mem_append.mpr (Or.inr h')) c
  obtain ⟨fs', hrun, hmem⟩ :=
    runSynthLoop_ok (rs₁ ++ .okNoAudio :: rs₂) hok' 0 [] []
  have hmap : (List.range (rs₁ ++ .okNoAudio :: rs₂).length).map
        (fun j => FPath.chunk (0 + j))
      = (List.range (rs₁ ++ .okNoAudio :: rs₂).length).map FPath.chunk := by
    refine List.map_congr_left ?_
    intro j _
    simp
  have hlen : rs₁.length < (rs₁ ++ .okNoAudio :: rs₂).length := by
    rw [List.length_append, List.length_cons]
    omega
  rw [hrun, loopOk, loopFiles, loopState, List.nil_append, hmap]
  refine ⟨rfl, rfl, ?_, ?_⟩
  · exact List.mem_map.mpr ⟨rs₁.length, List.mem_range.mpr hlen, rfl⟩
  · rw [fsHas_eq_false_iff]
    intro e he
    rcases hmem e he with h | ⟨j, hj, hget, hpath⟩
    · exact absurd h (List.not_mem_nil e)
    · rw [hpath]
      intro hh
      have hjk : j = rs₁.length := by
        have := FPath.chunk.inj hh
        omega
      rw [hjk, List.get?_append_right (le_refl _), Nat.sub_self,
        List.get?_cons_zero] at hget
      exact PollyResponse.noConfusion (Option.some.inj hget)

/-- C10 witness: of three chunks the middle response has no
`"AudioStream"`: all three paths are recorded, the middle file is absent. -/
theorem missing_audiostream_path_recorded_witness :
    loopOk (runSynthLoop ([.okAudio 3] ++ .okNoAudio :: [.okAudio 4]) 0 [] [])
        = true
    ∧ loopFiles (runSynthLoop ([.okAudio 3] ++ .okNoAudio :: [.okAudio 4]) 0 [] [])
        = (List.range ([.okAudio 3] ++ .okNoAudio :: [.okAudio 4] :
            List PollyResponse).length).map FPath.chunk
    ∧ FPath.chunk ([.okAudio 3] : List PollyResponse).length
        ∈ loopFiles (runSynthLoop ([.okAudio 3] ++ .okNoAudio :: [.okAudio 4]) 0 [] [])
    ∧ fsHas (FPath.chunk ([.okAudio 3] : List PollyResponse).length)
        (loopState (runSynthLoop ([.okAudio 3] ++ .okNoAudio :: [.okAudio 4]) 0 [] []))
        = false :=
  missing_audiostream_path_recorded [.okAudio 3] [.okAudio 4] (by simp)

end Reader
